import Mathlib

/-!
Shallow embedding of the `rust-critbit` crate (`src/lib.rs`): a crit-bit tree
mapping fixed-width unsigned integer keys to values.

Keys of the Rust generic type `K : PrimInt` of bit width `w` are embedded as
natural numbers `< 2 ^ w`; the width `w` is an explicit parameter of every
operation.  `Option<Box<CritBitNode>>` children are embedded as
`Option (CritBitNode V)`.  The `unreachable!` panic in `CritBitNode::insert`
is embedded by letting `insert` return `none` (a panic), while a normal
return of `x` is `some x`.  `CritBitNode::get` has no panic path in the
source (its final match arm returns `None`), so it is a total function.
-/

/-- Embedding of Rust `value.rotate_left(n)` on a `w`-bit unsigned integer:
rotation is by `n % w` bit positions, result taken in `[0, 2^w)`. -/
def rotateLeft (w x n : Nat) : Nat :=
  ((x <<< (n % w)) ||| (x >>> (w - n % w))) % 2 ^ w

/-- Embedding of Rust `x.leading_zeros()` on a `w`-bit unsigned integer
(`x < 2 ^ w`): the number of zero bits before the first set bit, counted
from the most significant end of the `w`-bit representation. -/
def leadingZeros : Nat → Nat → Nat
  | 0, _ => 0
  | w + 1, x => if 2 ^ w ≤ x then 0 else leadingZeros w x + 1

/-- Embedding of `fn bit_at<T: PrimInt>(value: &T, pos: &u32) -> bool`
from `src/lib.rs`: `value.rotate_left(*pos).leading_zeros() == 0`. -/
def bit_at (w : Nat) (value : Nat) (pos : Nat) : Bool :=
  leadingZeros w (rotateLeft w value pos) == 0

/-- Embedding of `enum CritBitNode<K, V>`: `Leaf(K, V)` or
`Internal(InternalCritBitNode { left, right, crit })`, with the fields of
`InternalCritBitNode` inlined into the constructor. -/
inductive CritBitNode (V : Type) : Type where
  | Leaf (k : Nat) (v : V)
  | Internal (left right : Option (CritBitNode V)) (crit : Nat)

/-- Embedding of `pub struct CritBit<K, V>(Option<CritBitNode<K, V>>)`. -/
structure CritBit (V : Type) where
  root : Option (CritBitNode V)

namespace CritBitNode

variable {V : Type}

/-- Embedding of `CritBitNode::len`: a Leaf counts 1, an Internal node sums
the lengths of whichever of its children are present. -/
def len : CritBitNode V → Nat
  | .Leaf _ _ => 1
  | .Internal l r _ =>
    (match l with | some n => n.len | none => 0) +
    (match r with | some n => n.len | none => 0)

/-- Embedding of `CritBitNode::get`.  Match arms in source order: a Leaf
answers only on exact key equality; an Internal node with the selected
child present recurses into it; everything else (a Leaf with a different
key, or an Internal node whose selected child is absent) returns `None`. -/
def get (w key : Nat) : CritBitNode V → Option V
  | .Leaf k v => if k = key then some v else none
  | .Internal l r c =>
    if bit_at w key c = false then
      match l with
      | some left => left.get w key
      | none => none
    else
      match r with
      | some right => right.get w key
      | none => none

/-- Embedding of `CritBitNode::get_mut`: the traversal is identical to
`get`; the mutable reference it yields is embedded by the value found. -/
def get_mut (w key : Nat) : CritBitNode V → Option V
  | .Leaf k v => if k = key then some v else none
  | .Internal l r c =>
    if bit_at w key c = false then
      match l with
      | some kid => kid.get_mut w key
      | none => none
    else
      match r with
      | some kid => kid.get_mut w key
      | none => none

/-- Embedding of `CritBitNode::insert`.  Returns `some (newNode, previous)`
on a normal return and `none` when the source hits the final
`unreachable!` panic (an Internal node whose selected child is absent).
Match arms in source order: a Leaf with the matching key replaces the value
in place and returns the old one; a Leaf with a differing key `k` computes
`crit = (k ^ key).leading_zeros()` and replaces itself by an Internal node
whose left child is the Leaf of the smaller key and whose right child is
the Leaf of the larger key; an Internal node recurses into the child
selected by `bit_at key crit`. -/
def insert (w : Nat) (key : Nat) (value : V) :
    CritBitNode V → Option (CritBitNode V × Option V)
  | .Leaf k v =>
    if k = key then some (.Leaf k value, some v)
    else
      let crit := leadingZeros w (k ^^^ key)
      if k < key then
        some (.Internal (some (.Leaf k v)) (some (.Leaf key value)) crit, none)
      else
        some (.Internal (some (.Leaf key value)) (some (.Leaf k v)) crit, none)
  | .Internal l r c =>
    if bit_at w key c = false then
      match l with
      | some kid => (kid.insert w key value).map (fun p => (.Internal (some p.1) r c, p.2))
      | none => none
    else
      match r with
      | some kid => (kid.insert w key value).map (fun p => (.Internal l (some p.1) c, p.2))
      | none => none

/-- The keys of the Leaves of a subtree, in left-to-right order. -/
def keys : CritBitNode V → List Nat
  | .Leaf k _ => [k]
  | .Internal l r _ =>
    (match l with | some n => n.keys | none => []) ++
    (match r with | some n => n.keys | none => [])

/-- Well-formedness of a subtree for key width `w`: every Leaf key is
below `2 ^ w`; every Internal node has both children present, a `crit`
below `w`, only keys with bit `crit` clear (in the `bit_at` sense) under
its left child and only keys with bit `crit` set under its right child. -/
def wf (w : Nat) : CritBitNode V → Bool
  | .Leaf k _ => decide (k < 2 ^ w)
  | .Internal l r c =>
    match l, r with
    | some ln, some rn =>
      decide (c < w) && ln.wf w && rn.wf w &&
      ln.keys.all (fun k => bit_at w k c == false) &&
      rn.keys.all (fun k => bit_at w k c == true)
    | _, _ => false

/-- Exactly invariant 2 of the spec, and nothing more: at every Internal
node with critical position `c`, every leaf key under the left child has
bit `c` clear and every leaf key under the right child has bit `c` set. -/
def bitsOk (w : Nat) : CritBitNode V → Bool
  | .Leaf _ _ => true
  | .Internal l r c =>
    (match l with
     | some n => n.keys.all (fun k => bit_at w k c == false) && n.bitsOk w
     | none => true) &&
    (match r with
     | some n => n.keys.all (fun k => bit_at w k c == true) && n.bitsOk w
     | none => true)

/-- Height of a subtree: a Leaf has height 1, an absent child height 0. -/
def height : CritBitNode V → Nat
  | .Leaf _ _ => 1
  | .Internal l r _ =>
    1 + max
      (match l with | some n => n.height | none => 0)
      (match r with | some n => n.height | none => 0)

/-- The sequences of `crit` values met along each root-to-leaf path of a
subtree, top-down. -/
def pathCrits : CritBitNode V → List (List Nat)
  | .Leaf _ _ => [[]]
  | .Internal l r c =>
    ((match l with | some n => n.pathCrits | none => []) ++
     (match r with | some n => n.pathCrits | none => [])).map (fun p => c :: p)

end CritBitNode

namespace CritBit

variable {V : Type}

/-- Embedding of `CritBit::new`. -/
def new (V : Type) : CritBit V := ⟨none⟩

/-- Embedding of `CritBit::clear`: the root is discarded. -/
def clear (_t : CritBit V) : CritBit V := ⟨none⟩

/-- Embedding of `CritBit::is_empty`. -/
def is_empty (t : CritBit V) : Bool := t.root.isNone

/-- Embedding of `CritBit::len`: 0 for an absent root, else the root's. -/
def len (t : CritBit V) : Nat :=
  match t.root with
  | some n => n.len
  | none => 0

/-- Embedding of `CritBit::get`. -/
def get (w key : Nat) (t : CritBit V) : Option V :=
  match t.root with
  | some n => n.get w key
  | none => none

/-- Embedding of `CritBit::get_mut`. -/
def get_mut (w key : Nat) (t : CritBit V) : Option V :=
  match t.root with
  | some n => n.get_mut w key
  | none => none

/-- Embedding of `CritBit::contains_key`: `self.get(key).is_some()`. -/
def contains_key (w key : Nat) (t : CritBit V) : Bool :=
  (t.get w key).isSome

/-- Embedding of `CritBit::insert`: an absent root is replaced by a fresh
Leaf; otherwise delegates to the root node's insert (`none` = panic). -/
def insert (w key : Nat) (value : V) (t : CritBit V) :
    Option (CritBit V × Option V) :=
  match t.root with
  | some node => (node.insert w key value).map (fun p => (⟨some p.1⟩, p.2))
  | none => some (⟨some (.Leaf key value)⟩, none)

/-- Well-formedness of a container: an absent root, or a well-formed root. -/
def wf (w : Nat) (t : CritBit V) : Bool :=
  match t.root with
  | some n => n.wf w
  | none => true

end CritBit

/-- Run a sequence of inserts from a given container; `none` if any insert
panics. -/
def runFrom {V : Type} (w : Nat) (ops : List (Nat × V)) (t : CritBit V) :
    Option (CritBit V) :=
  ops.foldl (fun acc p => acc.bind (fun t0 => (CritBit.insert w p.1 p.2 t0).map Prod.fst))
    (some t)

/-- Run a sequence of inserts from a new container. -/
def runInserts (w : Nat) (V : Type) (ops : List (Nat × V)) : Option (CritBit V) :=
  runFrom w ops (CritBit.new V)

/-- Reference model of a map built by a sequence of inserts: the value of
the last insert of `k` in `ops`, if any (last write wins). -/
def modelLookup {V : Type} (ops : List (Nat × V)) (k : Nat) : Option V :=
  ops.foldl (fun acc p => if p.1 = k then some p.2 else acc) none

theorem leadingZeros_eq_zero_iff (w x : Nat) :
    leadingZeros (w + 1) x = 0 ↔ 2 ^ w ≤ x := by
  simp only [leadingZeros]
  split
  · simpa
  · simp_all

theorem leadingZeros_lt {w x : Nat} (hx : x ≠ 0) (hxw : x < 2 ^ w) :
    leadingZeros w x < w := by
  induction w with
  | zero => omega
  | succ w ih =>
    simp only [leadingZeros]
    split
    · omega
    · have := ih (by omega)
      omega

theorem leadingZeros_bounds {w x : Nat} (hx : x ≠ 0) (hxw : x < 2 ^ w) :
    2 ^ (w - 1 - leadingZeros w x) ≤ x ∧ x < 2 ^ (w - leadingZeros w x) := by
  induction w with
  | zero => omega
  | succ w ih =>
    simp only [leadingZeros]
    split
    · rename_i h
      exact ⟨by simpa using h, by simpa using hxw⟩
    · rename_i h
      have hb := ih (by omega)
      have hlt := leadingZeros_lt hx (show x < 2 ^ w by omega)
      constructor
      · have : w + 1 - 1 - (leadingZeros w x + 1) = w - 1 - leadingZeros w x := by omega
        rw [this]
        exact hb.1
      · have : w + 1 - (leadingZeros w x + 1) = w - leadingZeros w x := by omega
        rw [this]
        exact hb.2

theorem testBit_of_bounds {m x : Nat} (h1 : 2 ^ m ≤ x) (h2 : x < 2 ^ (m + 1)) :
    Nat.testBit x m = true := by
  rw [Nat.testBit_to_div_mod]
  have hdiv : x / 2 ^ m = 1 := by
    apply Nat.div_eq_of_lt_le (by omega)
    have : 2 ^ (m + 1) = 2 * 2 ^ m := by ring
    omega
  simp [hdiv]

theorem bit_at_eq_testBit {w key pos : Nat} (hw : 0 < w) (hk : key < 2 ^ w)
    (hp : pos < w) : bit_at w key pos = Nat.testBit key (w - 1 - pos) := by
  unfold bit_at
  have hrot : rotateLeft w key pos < 2 ^ w := Nat.mod_lt _ (by positivity)
  have hmod : pos % w = pos := Nat.mod_eq_of_lt hp
  have htop : Nat.testBit (rotateLeft w key pos) (w - 1) =
      Nat.testBit key (w - 1 - pos) := by
    unfold rotateLeft
    rw [hmod]
    rw [Nat.testBit_mod_two_pow, Nat.testBit_or, Nat.testBit_shiftLeft,
      Nat.testBit_shiftRight]
    have h1 : Nat.testBit key (w - pos + (w - 1)) = false := by
      apply Nat.testBit_lt_two_pow
      calc key < 2 ^ w := hk
        _ ≤ 2 ^ (w - pos + (w - 1)) := Nat.pow_le_pow_right (by omega) (by omega)
    have h2 : decide (w - 1 ≥ pos) = true := by simp; omega
    have h3 : decide (w - 1 < w) = true := by simp; omega
    rw [h1, h2, h3]
    simp
  rw [Bool.eq_iff_iff]
  constructor
  · intro h
    have h0 : leadingZeros w (rotateLeft w key pos) = 0 := by simpa using h
    obtain ⟨w', rfl⟩ : ∃ w', w = w' + 1 := ⟨w - 1, by omega⟩
    have hge : 2 ^ w' ≤ rotateLeft (w' + 1) key pos :=
      (leadingZeros_eq_zero_iff w' _).mp h0
    rw [← htop]
    have : w' + 1 - 1 = w' := by omega
    rw [this]
    exact testBit_of_bounds hge (by simpa using hrot)
  · intro h
    rw [← htop] at h
    obtain ⟨w', rfl⟩ : ∃ w', w = w' + 1 := ⟨w - 1, by omega⟩
    have : w' + 1 - 1 = w' := by omega
    rw [this] at h
    have hge : 2 ^ w' ≤ rotateLeft (w' + 1) key pos := Nat.testBit_implies_ge h
    simpa using (leadingZeros_eq_zero_iff w' _).mpr hge

/-- At the critical position of two distinct keys (the leading-zero count of
their XOR), the smaller key's bit is clear and the larger key's bit is set. -/
theorem split_bits {w k key : Nat} (hlt : k < key) (hk2 : key < 2 ^ w) :
    leadingZeros w (k ^^^ key) < w ∧
    bit_at w k (leadingZeros w (k ^^^ key)) = false ∧
    bit_at w key (leadingZeros w (k ^^^ key)) = true := by
  have hw : 0 < w := by
    by_contra h
    interval_cases w <;> omega
  have hk1 : k < 2 ^ w := by omega
  have hxne : k ^^^ key ≠ 0 := fun h => by
    have := Nat.xor_eq_zero.mp h
    omega
  have hxlt : k ^^^ key < 2 ^ w := Nat.xor_lt_two_pow hk1 hk2
  set c := leadingZeros w (k ^^^ key) with hc
  have hclt : c < w := leadingZeros_lt hxne hxlt
  refine ⟨hclt, ?_⟩
  set m := w - 1 - c with hm
  have hbnd := leadingZeros_bounds hxne hxlt
  have hwc : w - c = m + 1 := by omega
  rw [hwc] at hbnd
  have hxm : Nat.testBit (k ^^^ key) m = true := testBit_of_bounds hbnd.1 hbnd.2
  have hxabove : ∀ j, m < j → Nat.testBit (k ^^^ key) j = false := by
    intro j hj
    apply Nat.testBit_lt_two_pow
    calc k ^^^ key < 2 ^ (m + 1) := hbnd.2
      _ ≤ 2 ^ j := Nat.pow_le_pow_right (by omega) (by omega)
  have hagree : ∀ j, m < j → Nat.testBit k j = Nat.testBit key j := by
    intro j hj
    have := hxabove j hj
    rw [Nat.testBit_xor] at this
    cases hki : Nat.testBit k j <;> cases hkj : Nat.testBit key j <;>
      simp_all
  have hdiff : Nat.testBit k m ≠ Nat.testBit key m := by
    intro h
    rw [Nat.testBit_xor, h] at hxm
    simp at hxm
  have hkm : Nat.testBit k m = false := by
    by_contra h
    have hk' : Nat.testBit k m = true := by simpa using h
    have hkey' : Nat.testBit key m = false := by
      cases hx : Nat.testBit key m
      · rfl
      · rw [hx] at hdiff; simp_all
    have : key < k := Nat.lt_of_testBit m hkey' hk'
      (fun j hj => (hagree j hj).symm)
    omega
  have hkeym : Nat.testBit key m = true := by
    cases hx : Nat.testBit key m
    · rw [hx] at hdiff; simp_all
    · rfl
  rw [bit_at_eq_testBit hw hk1 hclt, bit_at_eq_testBit hw hk2 hclt]
  exact ⟨by rw [← hm, hkm], by rw [← hm, hkeym]⟩

namespace CritBitNode

variable {V : Type}

theorem get_leaf (w q k : Nat) (v : V) :
    (Leaf k v).get w q = if k = q then some v else none := rfl

theorem get_internal_left {w q c : Nat} (h : bit_at w q c = false)
    (ln : CritBitNode V) (r : Option (CritBitNode V)) :
    (Internal (some ln) r c).get w q = ln.get w q := by
  rw [get.eq_def]; simp [h]

theorem get_internal_right {w q c : Nat} (h : bit_at w q c = true)
    (l : Option (CritBitNode V)) (rn : CritBitNode V) :
    (Internal l (some rn) c).get w q = rn.get w q := by
  rw [get.eq_def]; simp [h]

theorem insert_internal_left {w q c : Nat} (h : bit_at w q c = false) (v : V)
    (ln : CritBitNode V) (r : Option (CritBitNode V)) :
    (Internal (some ln) r c).insert w q v =
      (ln.insert w q v).map (fun p => (Internal (some p.1) r c, p.2)) := by
  rw [insert.eq_def]; simp [h]

theorem insert_internal_right {w q c : Nat} (h : bit_at w q c = true) (v : V)
    (l : Option (CritBitNode V)) (rn : CritBitNode V) :
    (Internal l (some rn) c).insert w q v =
      (rn.insert w q v).map (fun p => (Internal l (some p.1) c, p.2)) := by
  rw [insert.eq_def]; simp [h]

theorem len_internal (l r : Option (CritBitNode V)) (c : Nat)
    (ln rn : CritBitNode V) (hl : l = some ln) (hr : r = some rn) :
    (Internal l r c).len = ln.len + rn.len := by
  subst hl hr; rfl

theorem keys_internal (ln rn : CritBitNode V) (c : Nat) :
    (Internal (some ln) (some rn) c).keys = ln.keys ++ rn.keys := rfl

theorem wf_leaf_iff (w k : Nat) (v : V) :
    (Leaf k v : CritBitNode V).wf w = true ↔ k < 2 ^ w := by
  simp [wf]

theorem wf_internal_iff (w c : Nat) (ln rn : CritBitNode V) :
    (Internal (some ln) (some rn) c).wf w = true ↔
      c < w ∧ ln.wf w = true ∧ rn.wf w = true ∧
      (∀ q ∈ ln.keys, bit_at w q c = false) ∧
      (∀ q ∈ rn.keys, bit_at w q c = true) := by
  simp [wf, List.all_eq_true, and_assoc]

theorem wf_internal_left_none (w c : Nat) (r : Option (CritBitNode V)) :
    (Internal none r c : CritBitNode V).wf w = false := by
  simp [wf]

theorem wf_internal_right_none (w c : Nat) (l : Option (CritBitNode V)) :
    (Internal l none c : CritBitNode V).wf w = false := by
  cases l <;> simp [wf]

/-- A well-formed subtree holds at least one key. -/
theorem wf_keys_ne_nil (w : Nat) :
    ∀ (n : CritBitNode V), n.wf w = true → n.keys ≠ []
  | .Leaf k _, _ => by simp [keys]
  | .Internal (some ln) (some rn) c, h => by
    have h' := (wf_internal_iff w c ln rn).mp h
    have := wf_keys_ne_nil w ln h'.2.1
    simp only [keys_internal, ne_eq, List.append_eq_nil]
    intro hc
    exact this hc.1
  | .Internal none r c, h => by
    rw [wf_internal_left_none] at h
    cases h
  | .Internal (some _) none c, h => by
    rw [wf_internal_right_none] at h
    cases h

theorem keys_leaf (k : Nat) (v : V) : (Leaf k v).keys = [k] := rfl

theorem keys_node (l r : Option (CritBitNode V)) (c : Nat) :
    (Internal l r c).keys =
      (match l with | some n => n.keys | none => []) ++
      (match r with | some n => n.keys | none => []) := by
  cases l <;> cases r <;> rfl

/-- `get` answers `some` only for a key stored at some Leaf. -/
theorem get_some_mem (w q : Nat) :
    ∀ (n : CritBitNode V) (v : V), n.get w q = some v → q ∈ n.keys
  | .Leaf k v0, v, h => by
    rw [get_leaf] at h
    split at h
    · simp_all [keys_leaf]
    · cases h
  | .Internal l r c, v, h => by
    cases hb : bit_at w q c
    · rcases l with _ | ln
      · rw [get.eq_def] at h
        simp [hb] at h
      · rw [get_internal_left hb ln r] at h
        have hm := get_some_mem w q ln v h
        rw [keys_node]
        exact List.mem_append_left _ hm
    · rcases r with _ | rn
      · rw [get.eq_def] at h
        simp [hb] at h
      · rw [get_internal_right hb l rn] at h
        have hm := get_some_mem w q rn v h
        rw [keys_node]
        exact List.mem_append_right _ hm

theorem insert_leaf (w key k : Nat) (value v : V) :
    (Leaf k v).insert w key value =
      if k = key then some (.Leaf k value, some v)
      else
        if k < key then
          some (.Internal (some (.Leaf k v)) (some (.Leaf key value))
            (leadingZeros w (k ^^^ key)), none)
        else
          some (.Internal (some (.Leaf key value)) (some (.Leaf k v))
            (leadingZeros w (k ^^^ key)), none) := rfl

theorem len_leaf (k : Nat) (v : V) : (Leaf k v : CritBitNode V).len = 1 := rfl

theorem len_node (l r : Option (CritBitNode V)) (c : Nat) :
    (Internal l r c).len =
      (match l with | some n => n.len | none => 0) +
      (match r with | some n => n.len | none => 0) := by
  cases l <;> cases r <;> rfl

/-- The specification of one `CritBitNode::insert` step on a well-formed
subtree, for a key within the width: the insert does not panic, returns
the previous value of the key, preserves well-formedness, updates `get`
pointwise, grows `len` by one exactly when the key was absent, and adds no
key other than the inserted one. -/
theorem insert_spec (w key : Nat) (value : V) :
    ∀ (n : CritBitNode V), n.wf w = true → key < 2 ^ w →
    ∃ n' res, n.insert w key value = some (n', res) ∧
      res = n.get w key ∧
      n'.wf w = true ∧
      (∀ q, n'.get w q = if q = key then some value else n.get w q) ∧
      n'.len = n.len + (if (n.get w key).isSome then 0 else 1) ∧
      (∀ q ∈ n'.keys, q ∈ n.keys ∨ q = key)
  | .Leaf k v0, hwf, hkey => by
    have hkw : k < 2 ^ w := (wf_leaf_iff w k v0).mp hwf
    by_cases hk : k = key
    · subst hk
      refine ⟨.Leaf k value, some v0, ?_, ?_, ?_, ?_, ?_, ?_⟩
      · rw [insert_leaf]; simp
      · simp [get_leaf]
      · exact (wf_leaf_iff w k value).mpr hkw
      · intro q
        by_cases hq : q = k
        · subst hq; simp [get_leaf]
        · have hkq : ¬ k = q := fun h => hq h.symm
          simp [get_leaf, hq, hkq]
      · simp [get_leaf, len_leaf]
      · intro q hq
        simp [keys_leaf] at hq
        simp [keys_leaf, hq]
    · rcases Nat.lt_or_ge k key with hlt | hge
      · -- k < key: old leaf goes left, new leaf goes right
        obtain ⟨hclt, hkb, hkeyb⟩ := split_bits hlt hkey
        refine ⟨.Internal (some (.Leaf k v0)) (some (.Leaf key value))
            (leadingZeros w (k ^^^ key)), none, ?_, ?_, ?_, ?_, ?_, ?_⟩
        · rw [insert_leaf]; simp [hk, hlt]
        · simp [get_leaf, hk]
        · rw [wf_internal_iff]
          refine ⟨hclt, (wf_leaf_iff _ _ _).mpr hkw, (wf_leaf_iff _ _ _).mpr hkey,
            ?_, ?_⟩
          · intro q hq; simp [keys_leaf] at hq; subst hq; exact hkb
          · intro q hq; simp [keys_leaf] at hq; subst hq; exact hkeyb
        · intro q
          by_cases hq : q = key
          · subst hq
            rw [get_internal_right hkeyb]
            simp [get_leaf]
          · rw [if_neg hq]
            by_cases hqk : q = k
            · subst hqk
              rw [get_internal_left hkb]
            · have hkq : ¬ k = q := fun h => hqk h.symm
              have hkeyq : ¬ key = q := fun h => hq h.symm
              cases hbq : bit_at w q (leadingZeros w (k ^^^ key))
              · rw [get_internal_left hbq]
              · rw [get_internal_right hbq]
                simp [get_leaf, hkq, hkeyq]
        · simp [get_leaf, hk, len_leaf, len_node]
        · intro q hq
          rw [keys_node] at hq
          simp [keys_leaf] at hq
          rcases hq with hq | hq
          · exact Or.inl (by simp [keys_leaf, hq])
          · exact Or.inr hq
      · -- key < k: new leaf goes left, old leaf goes right
        have hlt : key < k := by omega
        have hnlt : ¬ k < key := by omega
        obtain ⟨hclt, hkeyb, hkb⟩ := split_bits hlt hkw
        rw [Nat.xor_comm key k] at hclt hkeyb hkb
        refine ⟨.Internal (some (.Leaf key value)) (some (.Leaf k v0))
            (leadingZeros w (k ^^^ key)), none, ?_, ?_, ?_, ?_, ?_, ?_⟩
        · rw [insert_leaf]; simp [hk, hnlt]
        · simp [get_leaf, hk]
        · rw [wf_internal_iff]
          refine ⟨hclt, (wf_leaf_iff _ _ _).mpr hkey, (wf_leaf_iff _ _ _).mpr hkw,
            ?_, ?_⟩
          · intro q hq; simp [keys_leaf] at hq; subst hq; exact hkeyb
          · intro q hq; simp [keys_leaf] at hq; subst hq; exact hkb
        · intro q
          by_cases hq : q = key
          · subst hq
            rw [get_internal_left hkeyb]
            simp [get_leaf]
          · rw [if_neg hq]
            by_cases hqk : q = k
            · subst hqk
              rw [get_internal_right hkb]
            · have hkq : ¬ k = q := fun h => hqk h.symm
              have hkeyq : ¬ key = q := fun h => hq h.symm
              cases hbq : bit_at w q (leadingZeros w (k ^^^ key))
              · rw [get_internal_left hbq]
                simp [get_leaf, hkq, hkeyq]
              · rw [get_internal_right hbq]
        · simp [get_leaf, hk, len_leaf, len_node]
        · intro q hq
          rw [keys_node] at hq
          simp [keys_leaf] at hq
          rcases hq with hq | hq
          · exact Or.inr hq
          · exact Or.inl (by simp [keys_leaf, hq])
  | .Internal (some ln) (some rn) c, hwf, hkey => by
    obtain ⟨hclt, hlwf, hrwf, hlb, hrb⟩ := (wf_internal_iff w c ln rn).mp hwf
    cases hb : bit_at w key c
    · obtain ⟨ln', res, hins, hres, hwf', hget', hlen', hkeys'⟩ :=
        insert_spec w key value ln hlwf hkey
      refine ⟨.Internal (some ln') (some rn) c, res, ?_, ?_, ?_, ?_, ?_, ?_⟩
      · rw [insert_internal_left hb, hins]; rfl
      · rw [get_internal_left hb]; exact hres
      · rw [wf_internal_iff]
        refine ⟨hclt, hwf', hrwf, ?_, hrb⟩
        intro q hq
        rcases hkeys' q hq with hmem | rfl
        · exact hlb q hmem
        · exact hb
      · intro q
        cases hbq : bit_at w q c
        · rw [get_internal_left hbq, get_internal_left hbq, hget' q]
        · have hqk : q ≠ key := fun he => by rw [he, hb] at hbq; cases hbq
          rw [get_internal_right hbq, get_internal_right hbq, if_neg hqk]
      · rw [len_node, len_node, get_internal_left hb]
        simp only [hlen']
        cases ln.get w key <;> simp <;> omega
      · intro q hq
        rw [keys_node] at hq
        simp only [List.mem_append] at hq
        rcases hq with hq | hq
        · rcases hkeys' q hq with hmem | rfl
          · exact Or.inl (by rw [keys_node]; exact List.mem_append_left _ hmem)
          · exact Or.inr rfl
        · exact Or.inl (by rw [keys_node]; exact List.mem_append_right _ hq)
    · obtain ⟨rn', res, hins, hres, hwf', hget', hlen', hkeys'⟩ :=
        insert_spec w key value rn hrwf hkey
      refine ⟨.Internal (some ln) (some rn') c, res, ?_, ?_, ?_, ?_, ?_, ?_⟩
      · rw [insert_internal_right hb, hins]; rfl
      · rw [get_internal_right hb]; exact hres
      · rw [wf_internal_iff]
        refine ⟨hclt, hlwf, hwf', hlb, ?_⟩
        intro q hq
        rcases hkeys' q hq with hmem | rfl
        · exact hrb q hmem
        · exact hb
      · intro q
        cases hbq : bit_at w q c
        · have hqk : q ≠ key := fun he => by rw [he, hb] at hbq; cases hbq
          rw [get_internal_left hbq, get_internal_left hbq, if_neg hqk]
        · rw [get_internal_right hbq, get_internal_right hbq, hget' q]
      · rw [len_node, len_node, get_internal_right hb]
        simp only [hlen']
        cases rn.get w key <;> simp <;> omega
      · intro q hq
        rw [keys_node] at hq
        simp only [List.mem_append] at hq
        rcases hq with hq | hq
        · exact Or.inl (by rw [keys_node]; exact List.mem_append_left _ hq)
        · rcases hkeys' q hq with hmem | rfl
          · exact Or.inl (by rw [keys_node]; exact List.mem_append_right _ hmem)
          · exact Or.inr rfl
  | .Internal none r c, hwf, _ => by
    rw [wf_internal_left_none] at hwf
    cases hwf
  | .Internal (some _) none c, hwf, _ => by
    rw [wf_internal_right_none] at hwf
    cases hwf

end CritBitNode

/-- One `CritBit::insert` step on a well-formed container, for a key within
the width: no panic, the previous value is returned, well-formedness is
preserved, `get` is updated pointwise and `len` grows by one exactly when
the key was absent. -/
theorem CritBit.insert_step {V : Type} (w key : Nat) (value : V) (t : CritBit V)
    (hwf : t.wf w = true) (hkey : key < 2 ^ w) :
    ∃ t' res, t.insert w key value = some (t', res) ∧
      res = t.get w key ∧
      t'.wf w = true ∧
      (∀ q, t'.get w q = if q = key then some value else t.get w q) ∧
      t'.len = t.len + (if (t.get w key).isSome then 0 else 1) := by
  obtain ⟨root⟩ := t
  cases root with
  | none =>
    refine ⟨⟨some (.Leaf key value)⟩, none, rfl, rfl, ?_, ?_, ?_⟩
    · simpa [CritBit.wf, CritBitNode.wf_leaf_iff] using hkey
    · intro q
      by_cases hq : q = key
      · subst hq
        simp [CritBit.get, CritBitNode.get_leaf]
      · have hkq : ¬ key = q := fun h => hq h.symm
        simp [CritBit.get, CritBitNode.get_leaf, hq, hkq]
    · simp [CritBit.len, CritBit.get, CritBitNode.len_leaf]
  | some n =>
    have hnwf : n.wf w = true := by simpa [CritBit.wf] using hwf
    obtain ⟨n', res, hins, hres, hwf', hget', hlen', _⟩ :=
      CritBitNode.insert_spec w key value n hnwf hkey
    refine ⟨⟨some n'⟩, res, ?_, ?_, ?_, ?_, ?_⟩
    · simp [CritBit.insert, hins]
    · simpa [CritBit.get] using hres
    · simpa [CritBit.wf] using hwf'
    · intro q
      simpa [CritBit.get] using hget' q
    · simpa [CritBit.len, CritBit.get] using hlen'

theorem runFrom_nil {V : Type} (w : Nat) (t : CritBit V) :
    runFrom w [] t = some t := rfl

theorem runFrom_cons_some {V : Type} (w : Nat) (p : Nat × V) (ops : List (Nat × V))
    (t t1 : CritBit V) (res : Option V)
    (h : CritBit.insert w p.1 p.2 t = some (t1, res)) :
    runFrom w (p :: ops) t = runFrom w ops t1 := by
  simp [runFrom, List.foldl_cons, h]

/-- Running a sequence of width-respecting inserts from a well-formed
container never panics, preserves well-formedness, and the resulting `get`
is the last-write-wins fold of the operations over the initial `get`. -/
theorem runFrom_spec {V : Type} (w : Nat) :
    ∀ (ops : List (Nat × V)), (∀ p ∈ ops, p.1 < 2 ^ w) →
    ∀ (t : CritBit V), t.wf w = true →
    ∃ t', runFrom w ops t = some t' ∧ t'.wf w = true ∧
      ∀ q, t'.get w q =
        ops.foldl (fun acc p => if p.1 = q then some p.2 else acc) (t.get w q) := by
  intro ops
  induction ops with
  | nil =>
    intro _ t hwf
    exact ⟨t, runFrom_nil w t, hwf, fun q => rfl⟩
  | cons p rest ih =>
    intro hops t hwf
    have hp : p.1 < 2 ^ w := hops p (List.mem_cons_self p rest)
    obtain ⟨t1, res, hins, _, hwf1, hget1, _⟩ :=
      CritBit.insert_step w p.1 p.2 t hwf hp
    obtain ⟨t', hrun, hwf', hget'⟩ :=
      ih (fun q hq => hops q (List.mem_cons_of_mem p hq)) t1 hwf1
    refine ⟨t', ?_, hwf', ?_⟩
    · rw [runFrom_cons_some w p rest t t1 res hins]
      exact hrun
    · intro q
      rw [hget' q, List.foldl_cons]
      congr 1
      rw [hget1 q]
      by_cases hq : q = p.1
      · simp [hq]
      · have hqp : ¬ p.1 = q := fun h => hq h.symm
        simp [hq, hqp]

/-- Running a sequence of width-respecting inserts from a new container
never panics, yields a well-formed container, and its `get` agrees with
the last-write-wins reference model. -/
theorem runInserts_spec (V : Type) (w : Nat) (ops : List (Nat × V))
    (hops : ∀ p ∈ ops, p.1 < 2 ^ w) :
    ∃ t, runInserts w V ops = some t ∧ t.wf w = true ∧
      ∀ q, t.get w q = modelLookup ops q := by
  obtain ⟨t, hrun, hwf, hget⟩ := runFrom_spec w ops hops (CritBit.new V) rfl
  exact ⟨t, hrun, hwf, fun q => hget q⟩

theorem modelLookup_eq_none {V : Type} (k : Nat) :
    ∀ (ops : List (Nat × V)), (∀ p ∈ ops, p.1 ≠ k) → modelLookup ops k = none := by
  have haux : ∀ (ops : List (Nat × V)) (acc : Option V), (∀ p ∈ ops, p.1 ≠ k) →
      ops.foldl (fun acc p => if p.1 = k then some p.2 else acc) acc = acc := by
    intro ops
    induction ops with
    | nil => intro acc _; rfl
    | cons p rest ih =>
      intro acc h
      rw [List.foldl_cons, if_neg (h p (List.mem_cons_self p rest))]
      exact ih acc (fun q hq => h q (List.mem_cons_of_mem p hq))
  intro ops h
  exact haux ops none h

namespace CritBitNode

variable {V : Type}

theorem pathCrits_leaf (k : Nat) (v : V) : (Leaf k v).pathCrits = [[]] := rfl

theorem pathCrits_node (l r : Option (CritBitNode V)) (c : Nat) :
    (Internal l r c).pathCrits =
      ((match l with | some n => n.pathCrits | none => []) ++
       (match r with | some n => n.pathCrits | none => [])).map (fun p => c :: p) := by
  cases l <;> cases r <;> rfl

theorem height_leaf (k : Nat) (v : V) : (Leaf k v : CritBitNode V).height = 1 := rfl

theorem height_node (l r : Option (CritBitNode V)) (c : Nat) :
    (Internal l r c).height =
      1 + max
        (match l with | some n => n.height | none => 0)
        (match r with | some n => n.height | none => 0) := by
  cases l <;> cases r <;> rfl

theorem bitsOk_node (l r : Option (CritBitNode V)) (c : Nat) :
    (Internal l r c : CritBitNode V).bitsOk w =
      ((match l with
        | some n => n.keys.all (fun k => bit_at w k c == false) && n.bitsOk w
        | none => true) &&
       (match r with
        | some n => n.keys.all (fun k => bit_at w k c == true) && n.bitsOk w
        | none => true)) := by
  cases l <;> cases r <;> rfl

/-- Well-formedness implies the spec's bit-routing invariant 2. -/
theorem wf_bitsOk (w : Nat) :
    ∀ (n : CritBitNode V), n.wf w = true → n.bitsOk w = true
  | .Leaf _ _, _ => rfl
  | .Internal (some ln) (some rn) c, h => by
    obtain ⟨_, hlwf, hrwf, hlb, hrb⟩ := (wf_internal_iff w c ln rn).mp h
    have hl := wf_bitsOk w ln hlwf
    have hr := wf_bitsOk w rn hrwf
    rw [bitsOk_node]
    simp only [Bool.and_eq_true, List.all_eq_true, beq_iff_eq]
    exact ⟨⟨fun q hq => hlb q hq, hl⟩, fun q hq => hrb q hq, hr⟩
  | .Internal none r c, h => by
    rw [wf_internal_left_none] at h; cases h
  | .Internal (some _) none c, h => by
    rw [wf_internal_right_none] at h; cases h

/-- In a well-formed subtree all of whose keys share the same bit value at
position `c0`, no Internal node carries `c0` as its `crit`: along every
path, `c0` never appears. -/
theorem crit_not_in_pathCrits (w c0 : Nat) (b : Bool) :
    ∀ (n : CritBitNode V), n.wf w = true →
    (∀ q ∈ n.keys, bit_at w q c0 = b) →
    ∀ p ∈ n.pathCrits, c0 ∉ p
  | .Leaf k v, _, _, p, hp => by
    rw [pathCrits_leaf] at hp
    simp at hp
    subst hp
    simp
  | .Internal (some ln) (some rn) c, hwf, hbit, p, hp => by
    obtain ⟨_, hlwf, hrwf, hlb, hrb⟩ := (wf_internal_iff w c ln rn).mp hwf
    rw [pathCrits_node] at hp
    simp only [List.mem_map, List.mem_append] at hp
    obtain ⟨p', hp', rfl⟩ := hp
    have hlkeys : ∀ q ∈ ln.keys, q ∈ (Internal (some ln) (some rn) c).keys := by
      intro q hq
      rw [keys_node]
      exact List.mem_append_left _ hq
    have hrkeys : ∀ q ∈ rn.keys, q ∈ (Internal (some ln) (some rn) c).keys := by
      intro q hq
      rw [keys_node]
      exact List.mem_append_right _ hq
    have hcc : c0 ≠ c := by
      intro he
      subst he
      obtain ⟨kl, hkl⟩ := List.exists_mem_of_ne_nil ln.keys (wf_keys_ne_nil w ln hlwf)
      obtain ⟨kr, hkr⟩ := List.exists_mem_of_ne_nil rn.keys (wf_keys_ne_nil w rn hrwf)
      have h1 := hbit kl (hlkeys kl hkl)
      have h2 := hbit kr (hrkeys kr hkr)
      rw [hlb kl hkl] at h1
      rw [hrb kr hkr] at h2
      rw [← h1] at h2
      cases h2
    intro hin
    rcases List.mem_cons.mp hin with he | hin'
    · exact hcc he
    · rcases hp' with hpl | hpr
      · exact crit_not_in_pathCrits w c0 b ln hlwf
          (fun q hq => hbit q (hlkeys q hq)) p' hpl hin'
      · exact crit_not_in_pathCrits w c0 b rn hrwf
          (fun q hq => hbit q (hrkeys q hq)) p' hpr hin'
  | .Internal none r c, hwf, _, p, hp => by
    rw [wf_internal_left_none] at hwf; cases hwf
  | .Internal (some _) none c, hwf, _, p, hp => by
    rw [wf_internal_right_none] at hwf; cases hwf

/-- In a well-formed subtree, the `crit` values along any root-to-leaf
path are pairwise distinct and all below the key width. -/
theorem wf_pathCrits_nodup_bounded (w : Nat) :
    ∀ (n : CritBitNode V), n.wf w = true →
    ∀ p ∈ n.pathCrits, p.Nodup ∧ ∀ c0 ∈ p, c0 < w
  | .Leaf _ _, _, p, hp => by
    rw [pathCrits_leaf] at hp
    simp at hp
    subst hp
    exact ⟨List.nodup_nil, by simp⟩
  | .Internal (some ln) (some rn) c, hwf, p, hp => by
    obtain ⟨hclt, hlwf, hrwf, hlb, hrb⟩ := (wf_internal_iff w c ln rn).mp hwf
    rw [pathCrits_node] at hp
    simp only [List.mem_map, List.mem_append] at hp
    obtain ⟨p', hp', rfl⟩ := hp
    have hbase : p'.Nodup ∧ (∀ c0 ∈ p', c0 < w) := by
      rcases hp' with hpl | hpr
      · exact wf_pathCrits_nodup_bounded w ln hlwf p' hpl
      · exact wf_pathCrits_nodup_bounded w rn hrwf p' hpr
    have hnotin : c ∉ p' := by
      rcases hp' with hpl | hpr
      · exact crit_not_in_pathCrits w c false ln hlwf (fun q hq => hlb q hq) p' hpl
      · exact crit_not_in_pathCrits w c true rn hrwf (fun q hq => hrb q hq) p' hpr
    refine ⟨List.nodup_cons.mpr ⟨hnotin, hbase.1⟩, ?_⟩
    intro c0 hc0
    rcases List.mem_cons.mp hc0 with rfl | h
    · exact hclt
    · exact hbase.2 c0 h
  | .Internal none r c, hwf, p, hp => by
    rw [wf_internal_left_none] at hwf; cases hwf
  | .Internal (some _) none c, hwf, p, hp => by
    rw [wf_internal_right_none] at hwf; cases hwf

/-- In a well-formed subtree, the height is realised by some root-to-leaf
path: it is that path's crit count plus one. -/
theorem wf_height_path (w : Nat) :
    ∀ (n : CritBitNode V), n.wf w = true →
    ∃ p, p ∈ n.pathCrits ∧ n.height = p.length + 1
  | .Leaf k v, _ => ⟨[], by rw [pathCrits_leaf]; simp, rfl⟩
  | .Internal (some ln) (some rn) c, hwf => by
    obtain ⟨_, hlwf, hrwf, _, _⟩ := (wf_internal_iff w c ln rn).mp hwf
    obtain ⟨pl, hpl, hhl⟩ := wf_height_path w ln hlwf
    obtain ⟨pr, hpr, hhr⟩ := wf_height_path w rn hrwf
    rcases Nat.le_total ln.height rn.height with hle | hle
    · refine ⟨c :: pr, ?_, ?_⟩
      · rw [pathCrits_node]
        exact List.mem_map.mpr ⟨pr, List.mem_append_right _ hpr, rfl⟩
      · show 1 + max ln.height rn.height = (c :: pr).length + 1
        rw [Nat.max_eq_right hle, hhr]
        simp [Nat.add_comm]
    · refine ⟨c :: pl, ?_, ?_⟩
      · rw [pathCrits_node]
        exact List.mem_map.mpr ⟨pl, List.mem_append_left _ hpl, rfl⟩
      · show 1 + max ln.height rn.height = (c :: pl).length + 1
        rw [Nat.max_eq_left hle, hhl]
        simp [Nat.add_comm]
  | .Internal none r c, hwf => by
    rw [wf_internal_left_none] at hwf; cases hwf
  | .Internal (some _) none c, hwf => by
    rw [wf_internal_right_none] at hwf; cases hwf

end CritBitNode

/-- A duplicate-free list of naturals all below `w` has length at most
`w`. -/
theorem nodup_bounded_length_le (w : Nat) (p : List Nat) (hnd : p.Nodup)
    (hb : ∀ c ∈ p, c < w) : p.length ≤ w := by
  have h1 : p.toFinset.card = p.length := List.toFinset_card_of_nodup hnd
  have h2 : p.toFinset ⊆ Finset.range w := by
    intro c hc
    rw [List.mem_toFinset] at hc
    exact Finset.mem_range.mpr (hb c hc)
  have h3 := Finset.card_le_card h2
  rw [h1, Finset.card_range] at h3
  exact h3

/-- C1: for every sequence of inserts starting from a new container whose
keys fit the width, and every key `k` whose last insert in the sequence
carries value `v` (which is what `modelLookup ops k = some v` states),
`get k` returns `v` and `contains_key k` returns `true`. -/
theorem C1_get_after_last_insert (V : Type) (w : Nat) (ops : List (Nat × V))
    (k : Nat) (v : V)
    (hops : ∀ p ∈ ops, p.1 < 2 ^ w)
    (hlast : modelLookup ops k = some v) :
    ∃ t, runInserts w V ops = some t ∧
      t.get w k = some v ∧ t.contains_key w k = true := by
  obtain ⟨t, hrun, _, hget⟩ := runInserts_spec V w ops hops
  refine ⟨t, hrun, ?_, ?_⟩
  · rw [hget k, hlast]
  · simp [CritBit.contains_key, hget k, hlast]

theorem C1_witness :
    ∃ t, runInserts 8 Nat [(5, 42), (6, 43)] = some t ∧
      t.get 8 5 = some 42 ∧ t.contains_key 8 5 = true :=
  C1_get_after_last_insert Nat 8 [(5, 42), (6, 43)] 5 42 (by decide) rfl

/-- C10: for every sequence of inserts from a new container whose keys fit
the width, and every key `k` never inserted, `get k` returns `none` and
`contains_key k` returns `false`. -/
theorem C10_never_inserted_get_none (V : Type) (w : Nat) (ops : List (Nat × V))
    (k : Nat)
    (hops : ∀ p ∈ ops, p.1 < 2 ^ w)
    (hk : ∀ p ∈ ops, p.1 ≠ k) :
    ∃ t, runInserts w V ops = some t ∧
      t.get w k = none ∧ t.contains_key w k = false := by
  obtain ⟨t, hrun, _, hget⟩ := runInserts_spec V w ops hops
  have h0 := modelLookup_eq_none k ops hk
  refine ⟨t, hrun, ?_, ?_⟩
  · rw [hget k, h0]
  · simp [CritBit.contains_key, hget k, h0]

theorem C10_witness :
    ∃ t, runInserts 8 Nat [(5, 42), (6, 43)] = some t ∧
      t.get 8 7 = none ∧ t.contains_key 8 7 = false :=
  C10_never_inserted_get_none Nat 8 [(5, 42), (6, 43)] 7 (by decide) (by decide)

/-- C4: from any container reachable by inserts and any key of the key
type, `insert(key, v)` returns the immediately prior value stored for
`key` (i.e. exactly `get key`: the prior value if present, else none),
and the new `len` exceeds the old by exactly 1 iff `key` was not
previously present, else is unchanged. -/
theorem C4_insert_prev_and_len (V : Type) (w : Nat) (ops : List (Nat × V))
    (t : CritBit V) (key : Nat) (v : V)
    (hops : ∀ p ∈ ops, p.1 < 2 ^ w)
    (hreach : runInserts w V ops = some t)
    (hkey : key < 2 ^ w) :
    ∃ t' res, t.insert w key v = some (t', res) ∧
      res = t.get w key ∧
      t'.len = (if t.contains_key w key then t.len else t.len + 1) := by
  obtain ⟨t0, hrun, hwf, _⟩ := runInserts_spec V w ops hops
  rw [hreach] at hrun
  obtain rfl := Option.some.inj hrun
  obtain ⟨t', res, hins, hres, _, _, hlen⟩ := CritBit.insert_step w key v t hwf hkey
  refine ⟨t', res, hins, hres, ?_⟩
  rw [hlen]
  cases hg : t.get w key <;> simp [CritBit.contains_key, hg]

theorem C4_witness :
    ∃ t' res, (CritBit.mk (some (.Leaf 5 42)) : CritBit Nat).insert 8 5 99 =
        some (t', res) ∧
      res = (CritBit.mk (some (.Leaf 5 42)) : CritBit Nat).get 8 5 ∧
      t'.len = (if (CritBit.mk (some (.Leaf 5 42)) : CritBit Nat).contains_key 8 5
        then (CritBit.mk (some (.Leaf 5 42)) : CritBit Nat).len
        else (CritBit.mk (some (.Leaf 5 42)) : CritBit Nat).len + 1) :=
  C4_insert_prev_and_len Nat 8 [(5, 42)] ⟨some (.Leaf 5 42)⟩ 5 99 (by decide) rfl
    (by decide)

/-- C9: after `clear()`, `is_empty` is `true`, `len` is `0`, and
`contains_key k` is `false` for every key `k` (in particular for every key
present before the call). -/
theorem C9_clear_empties (V : Type) (w : Nat) (t : CritBit V) (k : Nat) :
    (t.clear).is_empty = true ∧ (t.clear).len = 0 ∧
    (t.clear).contains_key w k = false := by
  refine ⟨rfl, rfl, ?_⟩
  simp [CritBit.clear, CritBit.contains_key, CritBit.get]

/-- C3 as stated is false for lookup: on an Internal node whose selected
child is missing, `get` (and `get_mut`) return `none` — the normal "not
found" answer — rather than aborting.  Here the probe selects the left
child (`bit_at 8 0 0 = false`), the left child is absent, and both
lookups return `none`. -/
theorem C3_counterexample :
    bit_at 8 0 0 = false ∧
    (CritBitNode.Internal none (some (.Leaf 1 1)) 0 : CritBitNode Nat).get 8 0 = none ∧
    (CritBitNode.Internal none (some (.Leaf 1 1)) 0 : CritBitNode Nat).get_mut 8 0 =
      none :=
  ⟨rfl, rfl, rfl⟩

/-- C3 amended: when the child selected by the bit probe is missing,
`insert` treats it as a fatal, non-recoverable abort (the `unreachable!`
panic, embedded as result `none`), while `get` and `get_mut` return the
ordinary "not found" `none` for that state. -/
theorem C3_insert_panics_lookup_none (V : Type) (w key c : Nat) (v : V)
    (l r : Option (CritBitNode V))
    (hmiss : (if bit_at w key c then r else l) = none) :
    (CritBitNode.Internal l r c).insert w key v = none ∧
    (CritBitNode.Internal l r c).get w key = none ∧
    (CritBitNode.Internal l r c).get_mut w key = none := by
  cases hb : bit_at w key c
  · rw [hb] at hmiss
    simp only [Bool.false_eq_true, if_false] at hmiss
    subst hmiss
    refine ⟨?_, ?_, ?_⟩
    · rw [CritBitNode.insert.eq_def]; simp [hb]
    · rw [CritBitNode.get.eq_def]; simp [hb]
    · rw [CritBitNode.get_mut.eq_def]; simp [hb]
  · rw [hb] at hmiss
    simp only [if_true] at hmiss
    subst hmiss
    refine ⟨?_, ?_, ?_⟩
    · rw [CritBitNode.insert.eq_def]; simp [hb]
    · rw [CritBitNode.get.eq_def]; simp [hb]
    · rw [CritBitNode.get_mut.eq_def]; simp [hb]

theorem C3_witness :
    (CritBitNode.Internal none (some (.Leaf 1 1)) 0 : CritBitNode Nat).insert 8 0 5 =
        none ∧
    (CritBitNode.Internal none (some (.Leaf 1 1)) 0 : CritBitNode Nat).get 8 0 = none ∧
    (CritBitNode.Internal none (some (.Leaf 1 1)) 0 : CritBitNode Nat).get_mut 8 0 =
      none :=
  C3_insert_panics_lookup_none Nat 8 0 0 5 none (some (.Leaf 1 1)) rfl

/-- C6: inserting `key` at a Leaf holding a differing key `k` computes
`crit` as the leading-zero count of `k XOR key`, builds an Internal node
whose left child is the Leaf of the numerically smaller key and whose
right child is the Leaf of the numerically larger key, installs it in the
Leaf's existing position (under a parent, the sibling child and the
parent's `crit` are unchanged), and returns `none`. -/
theorem C6_leaf_split (V : Type) (w k key : Nat) (v0 v : V) (hne : k ≠ key) :
    ∃ nd : CritBitNode V,
      nd = CritBitNode.Internal
        (some (.Leaf (min k key) (if k < key then v0 else v)))
        (some (.Leaf (max k key) (if k < key then v else v0)))
        (leadingZeros w (k ^^^ key)) ∧
      (CritBitNode.Leaf k v0).insert w key v = some (nd, none) ∧
      (∀ (sib : Option (CritBitNode V)) (c : Nat), bit_at w key c = false →
        (CritBitNode.Internal (some (.Leaf k v0)) sib c).insert w key v =
          some (.Internal (some nd) sib c, none)) ∧
      (∀ (sib : Option (CritBitNode V)) (c : Nat), bit_at w key c = true →
        (CritBitNode.Internal sib (some (.Leaf k v0)) c).insert w key v =
          some (.Internal sib (some nd) c, none)) := by
  have hleaf : (CritBitNode.Leaf k v0).insert w key v =
      some (CritBitNode.Internal
        (some (.Leaf (min k key) (if k < key then v0 else v)))
        (some (.Leaf (max k key) (if k < key then v else v0)))
        (leadingZeros w (k ^^^ key)), none) := by
    rw [CritBitNode.insert_leaf]
    by_cases hlt : k < key
    · have hmin : min k key = k := by omega
      have hmax : max k key = key := by omega
      simp [hne, hlt, hmin, hmax]
    · have hmin : min k key = key := by omega
      have hmax : max k key = k := by omega
      simp [hne, hlt, hmin, hmax]
  refine ⟨_, rfl, hleaf, ?_, ?_⟩
  · intro sib c hb
    rw [CritBitNode.insert_internal_left hb, hleaf]
    rfl
  · intro sib c hb
    rw [CritBitNode.insert_internal_right hb, hleaf]
    rfl

theorem C6_witness :
    (0 : Nat) ≠ 1 ∧
    (CritBitNode.Leaf 0 (10 : Nat)).insert 8 1 11 =
      some (.Internal (some (.Leaf 0 10)) (some (.Leaf 1 11)) 7, none) := by
  refine ⟨by decide, ?_⟩
  obtain ⟨nd, hnd, hleaf, _, _⟩ := C6_leaf_split Nat 8 0 1 10 11 (by decide)
  rw [hleaf, hnd]
  rfl

/-- C8: the bit probe answers whether the bit at position `pos`, counted
from the most significant bit of the `w`-bit key (`pos = 0` is the MSB,
i.e. absolute bit `w - 1 - pos`), is set; and the four documented 8-bit
sample points hold. -/
theorem C8_bit_probe (w key pos : Nat) (hw : 0 < w) (hk : key < 2 ^ w)
    (hp : pos < w) :
    bit_at w key pos = Nat.testBit key (w - 1 - pos) ∧
    bit_at 8 1 0 = false ∧ bit_at 8 128 0 = true ∧
    bit_at 8 1 7 = true ∧ bit_at 8 128 7 = false :=
  ⟨bit_at_eq_testBit hw hk hp, rfl, rfl, rfl, rfl⟩

theorem C8_witness :
    bit_at 8 1 0 = Nat.testBit 1 (8 - 1 - 0) ∧
    bit_at 8 1 0 = false ∧ bit_at 8 128 0 = true ∧
    bit_at 8 1 7 = true ∧ bit_at 8 128 7 = false :=
  C8_bit_probe 8 1 0 (by decide) (by decide) (by decide)

/-- C2 as stated is false: in the tree reached by inserting 0, 1, 128
(8-bit keys) from a new container, the root has `crit = 7` and its left
child has `crit = 0`, so the successive `crit` values along that
root-to-leaf path do not strictly increase. -/
theorem C2_counterexample :
    runInserts 8 Nat [(0, 0), (1, 1), (128, 2)] =
      some ⟨some (.Internal
        (some (.Internal (some (.Leaf 0 0)) (some (.Leaf 128 2)) 0))
        (some (.Leaf 1 1)) 7)⟩ ∧
    [7, 0] ∈ (CritBitNode.Internal
        (some (.Internal (some (.Leaf 0 0)) (some (.Leaf 128 2)) 0))
        (some (.Leaf 1 1)) 7 : CritBitNode Nat).pathCrits ∧
    ¬ List.Chain' (fun a b => a < b) [7, 0] :=
  ⟨rfl, by decide, fun h => absurd (List.chain'_cons.mp h).1 (by decide)⟩

/-- C2 amended: in every tree reachable by inserts from a new container,
along any root-to-leaf path the `crit` values of the Internal nodes are
pairwise distinct (though not necessarily increasing), and every `crit`
value is below the key type's bit width. -/
theorem C2_path_crits_distinct_bounded (V : Type) (w : Nat)
    (ops : List (Nat × V)) (t : CritBit V) (n : CritBitNode V)
    (hops : ∀ p ∈ ops, p.1 < 2 ^ w)
    (hreach : runInserts w V ops = some t)
    (hn : t.root = some n) :
    ∀ p ∈ n.pathCrits, p.Nodup ∧ ∀ c ∈ p, c < w := by
  obtain ⟨t0, hrun, hwf, _⟩ := runInserts_spec V w ops hops
  rw [hreach] at hrun
  obtain rfl := Option.some.inj hrun
  have hnwf : n.wf w = true := by
    rw [CritBit.wf, hn] at hwf
    exact hwf
  exact CritBitNode.wf_pathCrits_nodup_bounded w n hnwf

theorem C2_witness :
    [7, 0].Nodup ∧ ∀ c ∈ [7, 0], c < 8 :=
  C2_path_crits_distinct_bounded Nat 8 [(0, 0), (1, 1), (128, 2)]
    ⟨some (.Internal (some (.Internal (some (.Leaf 0 0)) (some (.Leaf 128 2)) 0))
      (some (.Leaf 1 1)) 7)⟩
    (.Internal (some (.Internal (some (.Leaf 0 0)) (some (.Leaf 128 2)) 0))
      (some (.Leaf 1 1)) 7)
    (by decide) rfl rfl [7, 0] (by decide)

/-- C5: every tree reachable by inserts from a new container (keys within
the width) has height at most the key's bit width plus one, independent of
the number of stored entries; hence the recursion depth of lookup and
insert, which descend one child per step, is bounded by the bit width plus
a constant. -/
theorem C5_height_le_width_succ (V : Type) (w : Nat)
    (ops : List (Nat × V)) (t : CritBit V) (n : CritBitNode V)
    (hops : ∀ p ∈ ops, p.1 < 2 ^ w)
    (hreach : runInserts w V ops = some t)
    (hn : t.root = some n) :
    n.height ≤ w + 1 := by
  obtain ⟨t0, hrun, hwf, _⟩ := runInserts_spec V w ops hops
  rw [hreach] at hrun
  obtain rfl := Option.some.inj hrun
  have hnwf : n.wf w = true := by
    rw [CritBit.wf, hn] at hwf
    exact hwf
  obtain ⟨p, hp, hh⟩ := CritBitNode.wf_height_path w n hnwf
  have hb := CritBitNode.wf_pathCrits_nodup_bounded w n hnwf p hp
  have hlen := nodup_bounded_length_le w p hb.1 hb.2
  omega

theorem C5_witness :
    (CritBitNode.Internal
      (some (.Internal (some (.Leaf 0 0)) (some (.Leaf 128 2)) 0))
      (some (.Leaf 1 1)) 7 : CritBitNode Nat).height ≤ 8 + 1 :=
  C5_height_le_width_succ Nat 8 [(0, 0), (1, 1), (128, 2)]
    ⟨some (.Internal (some (.Internal (some (.Leaf 0 0)) (some (.Leaf 128 2)) 0))
      (some (.Leaf 1 1)) 7)⟩
    (.Internal (some (.Internal (some (.Leaf 0 0)) (some (.Leaf 128 2)) 0))
      (some (.Leaf 1 1)) 7)
    (by decide) rfl rfl

/-- C7: in every tree reachable by inserts from a new container (keys
within the width), every Internal node with critical position `c` has only
keys with bit `c` (counted from the MSB, i.e. `bit_at`) clear under its
left child and only keys with bit `c` set under its right child. -/
theorem C7_children_bit_partition (V : Type) (w : Nat)
    (ops : List (Nat × V)) (t : CritBit V) (n : CritBitNode V)
    (hops : ∀ p ∈ ops, p.1 < 2 ^ w)
    (hreach : runInserts w V ops = some t)
    (hn : t.root = some n) :
    n.bitsOk w = true := by
  obtain ⟨t0, hrun, hwf, _⟩ := runInserts_spec V w ops hops
  rw [hreach] at hrun
  obtain rfl := Option.some.inj hrun
  have hnwf : n.wf w = true := by
    rw [CritBit.wf, hn] at hwf
    exact hwf
  exact CritBitNode.wf_bitsOk w n hnwf

theorem C7_witness :
    (CritBitNode.Internal
      (some (.Internal (some (.Leaf 0 0)) (some (.Leaf 128 2)) 0))
      (some (.Leaf 1 1)) 7 : CritBitNode Nat).bitsOk 8 = true :=
  C7_children_bit_partition Nat 8 [(0, 0), (1, 1), (128, 2)]
    ⟨some (.Internal (some (.Internal (some (.Leaf 0 0)) (some (.Leaf 128 2)) 0))
      (some (.Leaf 1 1)) 7)⟩
    (.Internal (some (.Internal (some (.Leaf 0 0)) (some (.Leaf 128 2)) 0))
      (some (.Leaf 1 1)) 7)
    (by decide) rfl rfl

example : bit_at 8 1 0 = false := rfl
example : bit_at 8 128 0 = true := rfl
example : bit_at 8 1 7 = true := rfl
example : bit_at 8 128 7 = false := rfl
example : runInserts 8 Nat [(0, 0), (1, 1), (128, 2)] =
    some ⟨some (.Internal
      (some (.Internal (some (.Leaf 0 0)) (some (.Leaf 128 2)) 0))
      (some (.Leaf 1 1)) 7)⟩ := rfl
